import Mathlib

/-
Verification development for an LSM-tree key-value storage engine
(source: src/lsm_tree.cpp).  The write path, the tiered merge
(compaction) policy, the multi-level lookup protocol and the bulk-load
path are embedded shallowly as executable Lean functions.

Modelling conventions:
- KEY_t and VAL_t are fixed-width integers in the source; they are
  modelled as Int.  VAL_TOMBSTONE is the reserved sentinel.
- The source stores merge_ratio as a float; it is modelled as the exact
  rational rnum / rden (all inputs settled here use float-exact values,
  so no rounding discrepancy arises).  The source computes
  int(merge_ratio * max_runs), i.e. the floor for nonnegative ratios,
  modelled as rnum * max_runs / rden in Nat arithmetic.
- die(...) terminates the process in the source; operations are
  modelled in Except with an error kind per diagnostic, and the two
  assert(...) sites are modelled as a distinct AssertFail error.
- The concurrent read path is modelled by its specified outcome: the
  smallest-index (freshest) hit across the global run order wins.
- Recursions are structured on explicit fuel so that every definition
  reduces inside the kernel; the fuel passed at each call site is exact
  for the recursion depth, so no behaviour is cut off.

The Buffer, Run and MergeContext implementations are not part of the
provided source (only lsm_tree.cpp is); they are modelled from the
spec, as marked on each definition.
-/

namespace LSM

/-- Entry: the unit record (key, value), from entry_t in the source. -/
structure entry_t where
  key : Int
  val : Int
deriving DecidableEq

/-- Modelled from the spec: VAL_TOMBSTONE is a reserved sentinel value in
the value type (the source defines it in a header that is not part of
src/); the 32-bit minimum is used as the concrete sentinel. -/
def VAL_TOMBSTONE : Int := -(2 ^ 31)

/-- Modelled from the spec: a Run is an immutable sorted sequence of
entries; map_read exposes exactly its entry list, put appends, and size
is the entry count. -/
structure Run where
  entries : List entry_t
deriving DecidableEq

/-- Level: a bounded collection of runs, oldest first, newest at the
tail (runs are appended at the back in the source). -/
structure Level where
  max_runs : Nat
  max_run_size : Nat
  runs : List Run
deriving DecidableEq

/-- remaining() = max_runs - runs.len(), from the Level interface of the spec
(the Level class body is in a header that is not part of src/). -/
def Level.remaining (l : Level) : Nat := l.max_runs - l.runs.length

/-- LSM tree state: the buffer (kept sorted by key, unique keys), its
capacity, the ordered vector of levels, and merge_ratio = rnum / rden.
The worker-pool size is dropped: the read path is modelled by its
specified sequential outcome. -/
structure LSMTree where
  buffer : List entry_t
  buffer_max : Nat
  levels : List Level
  rnum : Nat
  rden : Nat
deriving DecidableEq

/-- Default level used for out-of-range vector access in the model
(never reached on the inputs the source admits). -/
def dLevel : Level := ⟨0, 0, []⟩

/-- Level i of the tree, as the iterator arithmetic of the source. -/
def levelAt (st : LSMTree) (i : Nat) : Level := st.levels.getD i dLevel

/-- Levels built by the LSMTree constructor: depth levels, every level
with max_runs = fanout, capacities growing by a factor of fanout
starting from the buffer capacity. -/
def mkLevels : Nat → Nat → Nat → List Level
  | 0, _, _ => []
  | d + 1, fanout, mrs => ⟨fanout, mrs, []⟩ :: mkLevels d fanout (mrs * fanout)

/-- LSMTree::LSMTree(buffer_max_entries, depth, fanout, num_threads,
merge_ratio); num_threads is dropped (see header comment). -/
def lsmInit (cap depth fanout rn rd : Nat) : LSMTree :=
  ⟨[], cap, mkLevels depth fanout cap, rn, rd⟩

/-
Buffer model (modelled from the spec, section 4.3: the buffer class is
not part of src/): a sorted unique-key container of fixed capacity.
-/

/-- Modelled from the spec: sorted insertion into the container
of the buffer (keys are unique; equal keys never reach this function). -/
def insertByKey (e : entry_t) : List entry_t → List entry_t
  | [] => [e]
  | x :: xs => if e.key < x.key then e :: x :: xs else x :: insertByKey e xs

/-- Modelled from the spec: Buffer::put returns the updated contents on
success, none when the buffer is full and the key is absent; updating
an existing key succeeds regardless of remaining capacity. -/
def bufPut (b : List entry_t) (cap : Nat) (k v : Int) : Option (List entry_t) :=
  if b.any (fun e => e.key == k) then
    some (b.map (fun e => if e.key == k then ⟨k, v⟩ else e))
  else if b.length < cap then
    some (insertByKey ⟨k, v⟩ b)
  else
    none

/-- Modelled from the spec: Buffer::get / Run::get point lookup,
returning the stored value (including the tombstone) when present. -/
def listGet (l : List entry_t) (k : Int) : Option Int :=
  (l.find? (fun e => e.key == k)).map (fun e => e.val)

/-- Modelled from the spec: Buffer::range / Run::range with an
inclusive upper bound, returning the sub-range in sorted order. -/
def rangeFilter (l : List entry_t) (s e : Int) : List entry_t :=
  l.filter (fun x => decide (s ≤ x.key) && decide (x.key ≤ e))

/-
Merge context (modelled from the spec, section 4.4: merge.h / merge.cpp
are not part of src/): a k-way sorted merger whose tie-break on equal
keys lets the stream with the smallest index added first win; all
cursors sharing the emitted key advance in the same next() call.
-/

/-- Merge context state: the registered input streams in the order they
were added (add() appends), each already consumed up to its cursor. -/
structure MergeContext where
  streams : List (List entry_t)
deriving DecidableEq

/-- Current head entry of every non-exhausted stream, in add order. -/
def MergeContext.heads (c : MergeContext) : List entry_t :=
  c.streams.filterMap List.head?

/-- done(): all input streams are exhausted. -/
def MergeContext.done (c : MergeContext) : Bool :=
  c.streams.all List.isEmpty

/-- Smallest key among the stream heads (none when done). -/
def MergeContext.minHeadKey (c : MergeContext) : Option Int :=
  match c.heads with
  | [] => none
  | e :: es => some (es.foldl (fun m x => if m ≤ x.key then m else x.key) e.key)

/-- next(): emit the smallest head key with the value of the
earliest-added stream holding that key, popping every stream whose head
carries that key.  The fallback entry is never reached when not done. -/
def MergeContext.next (c : MergeContext) : entry_t × MergeContext :=
  match c.minHeadKey with
  | none => (⟨0, 0⟩, c)
  | some k =>
    let v := match c.heads.find? (fun e => e.key == k) with
             | some e => e.val
             | none => 0
    (⟨k, v⟩,
     ⟨c.streams.map (fun s =>
        match s with
        | [] => []
        | e :: rest => if e.key == k then rest else e :: rest)⟩)

/-- Total number of entries left in the context; used as exact fuel for
the drain loops. -/
def ctxSize (c : MergeContext) : Nat :=
  (c.streams.map List.length).sum

/-- Drain loop of merge_down: while (!ctx.done()) collect ctx.next(). -/
def drainAux : Nat → MergeContext → List entry_t
  | 0, _ => []
  | f + 1, c =>
    if c.done then []
    else
      let p := c.next
      p.1 :: drainAux f p.2

/-- All entries produced by draining a merge context. -/
def drainList (c : MergeContext) : List entry_t :=
  drainAux (ctxSize c) c

/-- Printed form of one entry in range output: key:value. -/
def entryToken (e : entry_t) : String :=
  toString e.key ++ ":" ++ toString e.val

/-- Print loop of LSMTree::range: while (!ctx.done()) take the next
entry; if it is not a tombstone print its token, then print a single
space whenever the context is not yet done. -/
def drainPrintAux : Nat → MergeContext → String
  | 0, _ => ""
  | f + 1, c =>
    if c.done then ""
    else
      let p := c.next
      (if p.1.val == VAL_TOMBSTONE then ""
       else entryToken p.1 ++ (if p.2.done then "" else " ")) ++
      drainPrintAux f p.2

/-- Error kinds of the engine (section 7 of the spec): die() sites and
assert sites of the source, plus the load-related kinds. -/
inductive Err where
  | TreeFull
  | AssertFail
  | FileNotFound
  | CorruptInput
deriving DecidableEq

/-- merge_size of a merge_down step at level i:
min(int(merge_ratio * max_runs), runs.size()). -/
def msizeOf (st : LSMTree) (i : Nat) : Nat :=
  min (st.rnum * (levelAt st i).max_runs / st.rden) (levelAt st i).runs.length

/-- The entry batch a merge_down step at level i drains from the merge
context: the oldest merge_size runs of level i, fed in vector order
runs[0], runs[1], ... (oldest first). -/
def mergeBatch (st : LSMTree) (i : Nat) : List entry_t :=
  drainList ⟨((levelAt st i).runs.take (msizeOf st i)).map Run.entries⟩

/-- Entries written into the run the merge step appends to level i+1:
the drained batch, with tombstones dropped when the destination is the
deepest level. -/
def mergeOut (st : LSMTree) (i : Nat) : List entry_t :=
  if i + 1 = st.levels.length - 1 then
    (mergeBatch st i).filter (fun e => !(e.val == VAL_TOMBSTONE))
  else mergeBatch st i

/-- State mutation of one merge_down step at level i (performed after
any recursive merge): append the run holding mergeOut to level i+1 and
erase the consumed prefix of level i. -/
def doMerge (st : LSMTree) (i : Nat) : LSMTree :=
  { st with
    levels := (st.levels.set (i + 1)
                { levelAt st (i + 1) with
                  runs := (levelAt st (i + 1)).runs ++ [⟨mergeOut st i⟩] }).set i
                { levelAt st i with
                  runs := (levelAt st i).runs.drop (msizeOf st i) } }

/-- LSMTree::merge_down, on explicit fuel (the recursion walks levels
i, i+1, ... so levels.length - i is exact fuel).  Empty current level:
no-op.  Deepest level: die(No more space in tree) = TreeFull.  Full
next level: recursive merge_down, then assert(next.remaining() > 0)
before the merge step runs on the returned state. -/
def merge_downAux : Nat → LSMTree → Nat → Except Err LSMTree
  | 0, st, _ => .ok st
  | gas + 1, st, i =>
    if (levelAt st i).runs.isEmpty then .ok st
    else if st.levels.length ≤ i + 1 then .error .TreeFull
    else if (levelAt st (i + 1)).remaining = 0 then
      match merge_downAux gas st (i + 1) with
      | .error e => .error e
      | .ok s =>
        if 0 < (levelAt s (i + 1)).remaining then .ok (doMerge s i)
        else .error .AssertFail
    else .ok (doMerge st i)

/-- LSMTree::merge_down at level index i. -/
def LSMTree.merge_down (st : LSMTree) (i : Nat) : Except Err LSMTree :=
  merge_downAux (st.levels.length - i) st i

/-- Flush step of LSMTree::put: append a fresh run holding the buffer
contents (already in sorted order) to level 0, empty the buffer and
re-insert the pending pair; assert(buffer.put(key, val)) is modelled as
AssertFail when the re-insert fails (zero-capacity buffer). -/
def flushPut (s : LSMTree) (k v : Int) : Except Err LSMTree :=
  match bufPut [] s.buffer_max k v with
  | some b =>
    .ok { s with
          levels := s.levels.set 0
            { levelAt s 0 with runs := (levelAt s 0).runs ++ [⟨s.buffer⟩] },
          buffer := b }
  | none => .error .AssertFail

/-- LSMTree::put: try the buffer; on failure merge level 0 down if it
has no remaining slot, then flush. -/
def LSMTree.put (st : LSMTree) (k v : Int) : Except Err LSMTree :=
  match bufPut st.buffer st.buffer_max k v with
  | some b => .ok { st with buffer := b }
  | none =>
    if (levelAt st 0).remaining = 0 then
      match st.merge_down 0 with
      | .error e => .error e
      | .ok s => flushPut s k v
    else flushPut st k v

/-- LSMTree::del(key) = put(key, VAL_TOMBSTONE). -/
def LSMTree.del (st : LSMTree) (k : Int) : Except Err LSMTree :=
  st.put k VAL_TOMBSTONE

/-- Global freshness order over runs, as walked by get_run: levels in
order, and inside each level from the tail (newest) to the head. -/
def allRunsFresh (st : LSMTree) : List Run :=
  (st.levels.map (fun l => l.runs.reverse)).flatten

/-- LSMTree::get: probe the buffer first; otherwise the smallest-index
hit in the global freshness order wins (the specified outcome of the
concurrent search).  none models the bare newline (absent key or
tombstone). -/
def LSMTree.get (st : LSMTree) (k : Int) : Option Int :=
  match listGet st.buffer k with
  | some v => if v == VAL_TOMBSTONE then none else some v
  | none =>
    match (allRunsFresh st).findSome? (fun r => listGet r.entries k) with
    | some v => if v == VAL_TOMBSTONE then none else some v
    | none => none

/-- LSMTree::range(start, end): empty line when end <= start; otherwise
the buffer sub-range (freshness key 0) and every run sub-range
(freshness key run index + 1) feed the merge context in freshness
order, and the print loop emits non-tombstone tokens. -/
def LSMTree.range (st : LSMTree) (start e : Int) : String :=
  if e ≤ start then "\n"
  else
    let endi := e - 1
    let c : MergeContext :=
      ⟨rangeFilter st.buffer start endi ::
        (allRunsFresh st).map (fun r => rangeFilter r.entries start endi)⟩
    drainPrintAux (ctxSize c) c ++ "\n"

/-
Bulk load.  Modelled from the spec concerning the record framing
(section 4.1, the stream operators read sizeof(KEY_t) bytes then
sizeof(VAL_t) bytes; the integer widths live in a header that is not
part of src/, the 32-bit example width is used).
-/

/-- Little-endian byte decoding into the signed 32-bit
integer range. -/
def decodeI32 (bytes : List Nat) : Int :=
  let n : Nat := bytes.foldr (fun b acc => b % 256 + 256 * acc) 0
  if n < 2 ^ 31 then (n : Int) else (n : Int) - 2 ^ 32

/-- operator>>(istream, entry_t): read 4 key bytes then 4 value bytes;
a partial read fails the stream, so fewer than 8 remaining bytes decode
to none. -/
def readEntry (bs : List Nat) : Option (entry_t × List Nat) :=
  if bs.length < 8 then none
  else some (⟨decodeI32 (bs.take 4), decodeI32 ((bs.drop 4).take 4)⟩, bs.drop 8)

/-- while (stream >> entry) put(entry.key, entry.val); fuel is the byte
count, exact for the recursion depth. -/
def loadAux : Nat → LSMTree → List Nat → Except Err LSMTree
  | 0, st, _ => .ok st
  | f + 1, st, bs =>
    match readEntry bs with
    | none => .ok st
    | some (e, rest) =>
      match st.put e.key e.val with
      | .error err => .error err
      | .ok s => loadAux f s rest

/-- LSMTree::load: none models an unopenable file
(die(Could not locate file)); otherwise the read loop runs on the
byte content. -/
def LSMTree.load (st : LSMTree) (file : Option (List Nat)) : Except Err LSMTree :=
  match file with
  | none => .error .FileNotFound
  | some bs => loadAux bs.length st bs

deriving instance DecidableEq for Except

/-
Observation vocabulary for the claims: operation sequences, the
freshness-order specification of writes, the level-capacity invariant,
the well-formedness facts the constructor establishes, and the batch a
merge step processes.
-/

/-- State-changing operations of the public interface (get and range
are pure observers of the model state). -/
inductive Op where
  | put (k v : Int)
  | del (k : Int)
deriving DecidableEq

/-- Run a sequence of operations against the tree. -/
def applyOps : LSMTree → List Op → Except Err LSMTree
  | st, [] => .ok st
  | st, o :: os =>
    match (match o with | .put k v => st.put k v | .del k => st.del k) with
    | .error e => .error e
    | .ok s => applyOps s os

/-- The values written to key k by an operation sequence, in order;
some v for put(k, v) and none for del(k). -/
def writesTo (ops : List Op) (k : Int) : List (Option Int) :=
  ops.filterMap (fun o =>
    match o with
    | .put q v => if q == k then some (some v) else none
    | .del q => if q == k then some none else none)

/-- Latest write on key k: some (some v) when it is put(k, v),
some none when it is del(k), none when k was never written.  A correct
get must print v in the first case and an empty line in the second. -/
def latestWrite (ops : List Op) (k : Int) : Option (Option Int) :=
  (writesTo ops k).getLast?

/-- Capacity discipline of one level: the run count respects max_runs
and every run respects the per-run entry capacity of the level. -/
def LevelOk (l : Level) : Prop :=
  l.runs.length ≤ l.max_runs ∧ ∀ r ∈ l.runs, r.entries.length ≤ l.max_run_size

instance (l : Level) : Decidable (LevelOk l) := by
  unfold LevelOk
  infer_instance

/-- Level-capacity invariant of the tree (claim C5), together with the
buffer respecting its own capacity. -/
def Inv (st : LSMTree) : Prop :=
  st.buffer.length ≤ st.buffer_max ∧ ∀ l ∈ st.levels, LevelOk l

instance (st : LSMTree) : Decidable (Inv st) := by
  unfold Inv
  infer_instance

/-- Structural facts the constructor establishes and no operation
touches: at least one level; the buffer fits into a level-0 run;
merge_ratio is at most one with a positive denominator; the merge_size
floor of every level is at least one; and adjacent capacities satisfy
max_runs * max_run_size <= next max_run_size (the constructor builds
the equality buffer_cap * fanout ^ i with max_runs = fanout). -/
def Wf (st : LSMTree) : Prop :=
  st.levels ≠ [] ∧
  0 < st.rden ∧
  st.rnum ≤ st.rden ∧
  st.buffer_max ≤ (levelAt st 0).max_run_size ∧
  (∀ i, i < st.levels.length → 1 ≤ st.rnum * (levelAt st i).max_runs / st.rden) ∧
  (∀ i, i < st.levels.length - 1 →
    (levelAt st i).max_runs * (levelAt st i).max_run_size ≤ (levelAt st (i + 1)).max_run_size)

instance (st : LSMTree) : Decidable (Wf st) := by
  unfold Wf
  infer_instance

/-- Chain condition characterising a TreeFull failure (claim C9): the
walk from level i downwards finds every level nonempty and every next
level full until it reaches the deepest level with runs to merge. -/
def chainAux : Nat → LSMTree → Nat → Bool
  | 0, _, _ => false
  | g + 1, st, i =>
    !(levelAt st i).runs.isEmpty &&
      (decide (st.levels.length ≤ i + 1) ||
        (decide ((levelAt st (i + 1)).remaining = 0) && chainAux g st (i + 1)))

/-- TreeFull chain condition rooted at level i. -/
def treeFullChain (st : LSMTree) (i : Nat) : Bool :=
  chainAux (st.levels.length - i) st i

/-- Complete fixed-width records at the front of a byte list; a
trailing partial record contributes nothing. -/
def parseAux : Nat → List Nat → List entry_t
  | 0, _ => []
  | f + 1, bs =>
    match readEntry bs with
    | none => []
    | some (e, rest) => e :: parseAux f rest

/-- All complete records of a bulk-load byte content. -/
def parseRecords (bs : List Nat) : List entry_t :=
  parseAux bs.length bs

/-- Insert a list of records through the public put path. -/
def putAll : LSMTree → List entry_t → Except Err LSMTree
  | st, [] => .ok st
  | st, e :: es =>
    match st.put e.key e.val with
    | .error err => .error err
    | .ok s => putAll s es

/-
Concrete configurations and traces used by the settled claims.
-/

/-- Tree with two level-0 runs both holding key 1: the older run (vector
index 0) holds value 10, the newer (index 1, appended later) holds 20;
merge_ratio 1, so one merge step compacts both. -/
def stC1 : LSMTree :=
  ⟨[], 1, [⟨2, 1, [⟨[⟨1, 10⟩]⟩, ⟨[⟨1, 20⟩]⟩]⟩, ⟨2, 2, []⟩], 1, 1⟩

/-- Constructor state for the freshness trace: buffer capacity 1,
depth 3, fanout 2, merge_ratio 1. -/
def initC2 : LSMTree := lsmInit 1 3 2 1 1

/-- Write trace whose compactions merge two runs holding key 1: the
last write on key 1 is put(1, 11). -/
def opsC2 : List Op :=
  [.put 1 10, .put 2 20, .put 1 11, .put 2 21,
   .put 3 30, .put 4 40, .put 5 50, .put 6 60]

/-- Configuration with merge_ratio 1/4 and fanout 2, so
merge_size = int(0.25 * 2) = 0: level 0 nonempty, level 1 full,
level 2 empty. -/
def stC3 : LSMTree :=
  ⟨[], 1, [⟨2, 1, [⟨[⟨1, 10⟩]⟩]⟩, ⟨2, 2, [⟨[⟨3, 30⟩]⟩, ⟨[⟨4, 40⟩]⟩]⟩, ⟨2, 4, []⟩], 1, 4⟩

/-- Same shape as stC3 but merge_ratio 1/2, so merge_size = 1 at the
full level 1. -/
def stW3 : LSMTree :=
  ⟨[], 1, [⟨2, 1, [⟨[⟨1, 10⟩]⟩]⟩, ⟨2, 2, [⟨[⟨3, 30⟩]⟩, ⟨[⟨4, 40⟩]⟩]⟩, ⟨2, 4, []⟩], 1, 2⟩

/-- Result of merging level 1 of stW3 down: level 1 lost its oldest
run, level 2 (deepest) gained the merged run. -/
def sW3 : LSMTree :=
  ⟨[], 1, [⟨2, 1, [⟨[⟨1, 10⟩]⟩]⟩, ⟨2, 2, [⟨[⟨4, 40⟩]⟩]⟩, ⟨2, 4, [⟨[⟨3, 30⟩]⟩]⟩], 1, 2⟩

/-- Constructor state for the tombstone trace: buffer capacity 1,
depth 2, fanout 2, merge_ratio 1. -/
def initC4 : LSMTree := lsmInit 1 2 2 1 1

/-- Trace that drives a tombstone for key 1 into the deepest level
after an older live value for key 1 already reached it. -/
def opsC4 : List Op :=
  [.put 1 10, .put 2 20, .del 1, .put 3 30, .put 4 40, .put 5 50]

/-- Constructor state with merge_ratio 1/4: buffer capacity 1, depth 2,
fanout 2. -/
def initC5 : LSMTree := lsmInit 1 2 2 1 4

/-- Four puts on distinct keys: the fourth one triggers a merge_down
that frees no slot. -/
def opsC5 : List Op := [.put 1 10, .put 2 20, .put 3 30, .put 4 40]

/-- Constructor state for the load claims: buffer capacity 4, depth 1,
fanout 4, merge_ratio 1. -/
def initC6 : LSMTree := lsmInit 4 1 4 1 1

/-- Twelve bytes: one complete little-endian record (key 1, value 10)
followed by a partial record of four bytes. -/
def bs12 : List Nat := [1, 0, 0, 0, 10, 0, 0, 0, 2, 0, 0, 0]

/-- Constructor state for the trailing-space trace: buffer capacity 2,
depth 1, fanout 2, merge_ratio 1. -/
def initC8 : LSMTree := lsmInit 2 1 2 1 1

/-- Deepest-destination merge input where every merged entry is a
tombstone: level 0 holds one run containing only (1, TOMBSTONE),
level 1 (deepest) is empty. -/
def stC10 : LSMTree :=
  ⟨[], 1, [⟨2, 1, [⟨[⟨1, VAL_TOMBSTONE⟩]⟩]⟩, ⟨2, 2, []⟩], 1, 1⟩

/-- Result of merging stC10 down from level 0: the all-tombstone batch
is elided at the deepest destination, leaving an empty run that still
occupies a slot of level 1. -/
def tC10 : LSMTree :=
  ⟨[], 1, [⟨2, 1, []⟩, ⟨2, 2, [⟨[]⟩]⟩], 1, 1⟩

/-- Saturated tree for the TreeFull characterisation: both levels hold
their maximum of one run, so merging level 0 down recurses to the
deepest level and dies. -/
def stFull : LSMTree :=
  ⟨[], 1, [⟨1, 1, [⟨[⟨1, 10⟩]⟩]⟩, ⟨1, 1, [⟨[⟨2, 20⟩]⟩]⟩], 1, 1⟩

/-
Helper lemmas: list access, the pure merge step, and facts about
merge_downAux proved by induction on its fuel.
-/

theorem getD_set_self (l : Level) :
    ∀ (L : List Level) (i : Nat), i < L.length → (L.set i l).getD i dLevel = l := by
  intro L
  induction L with
  | nil => intro i h; simp at h
  | cons x xs ih =>
    intro i h
    cases i with
    | zero => rfl
    | succ n => exact ih n (by simpa using h)

theorem getD_set_ne (l : Level) :
    ∀ (L : List Level) (i j : Nat), i ≠ j → (L.set i l).getD j dLevel = L.getD j dLevel := by
  intro L
  induction L with
  | nil => intro i j _; simp
  | cons x xs ih =>
    intro i j hij
    cases i with
    | zero =>
      cases j with
      | zero => exact absurd rfl hij
      | succ m => rfl
    | succ n =>
      cases j with
      | zero => rfl
      | succ m => exact ih n m (fun h => hij (by omega))

theorem getD_mem :
    ∀ (L : List Level) (i : Nat), i < L.length → L.getD i dLevel ∈ L := by
  intro L
  induction L with
  | nil => intro i h; simp at h
  | cons x xs ih =>
    intro i h
    cases i with
    | zero => exact List.mem_cons_self x xs
    | succ n => exact List.mem_cons_of_mem x (ih n (by simpa using h))

theorem getD_default :
    ∀ (L : List Level) (i : Nat), L.length ≤ i → L.getD i dLevel = dLevel := by
  intro L
  induction L with
  | nil => intro i _; cases i <;> rfl
  | cons x xs ih =>
    intro i h
    cases i with
    | zero => simp at h
    | succ n => exact ih n (by simpa using h)

theorem doMerge_buffer (st : LSMTree) (i : Nat) : (doMerge st i).buffer = st.buffer := rfl

theorem doMerge_buffer_max (st : LSMTree) (i : Nat) :
    (doMerge st i).buffer_max = st.buffer_max := rfl

theorem doMerge_rnum (st : LSMTree) (i : Nat) : (doMerge st i).rnum = st.rnum := rfl

theorem doMerge_rden (st : LSMTree) (i : Nat) : (doMerge st i).rden = st.rden := rfl

theorem doMerge_length (st : LSMTree) (i : Nat) :
    (doMerge st i).levels.length = st.levels.length := by
  simp [doMerge]

theorem levelAt_doMerge_cur (st : LSMTree) (i : Nat) (h : i + 1 < st.levels.length) :
    levelAt (doMerge st i) i =
      { levelAt st i with runs := (levelAt st i).runs.drop (msizeOf st i) } := by
  unfold levelAt doMerge
  exact getD_set_self _ _ _ (by simpa using Nat.lt_of_succ_lt h)

theorem levelAt_doMerge_next (st : LSMTree) (i : Nat) (h : i + 1 < st.levels.length) :
    levelAt (doMerge st i) (i + 1) =
      { levelAt st (i + 1) with
        runs := (levelAt st (i + 1)).runs ++ [⟨mergeOut st i⟩] } := by
  unfold levelAt doMerge
  rw [getD_set_ne _ _ _ _ (by omega)]
  exact getD_set_self _ _ _ h

theorem levelAt_doMerge_other (st : LSMTree) (i j : Nat) (h1 : j ≠ i) (h2 : j ≠ i + 1) :
    levelAt (doMerge st i) j = levelAt st j := by
  unfold levelAt doMerge
  rw [getD_set_ne _ _ _ _ (fun h => h1 h.symm), getD_set_ne _ _ _ _ (fun h => h2 h.symm)]

theorem levelAt_doMerge_attrs (st : LSMTree) (i : Nat) (h : i + 1 < st.levels.length) (j : Nat) :
    (levelAt (doMerge st i) j).max_runs = (levelAt st j).max_runs ∧
    (levelAt (doMerge st i) j).max_run_size = (levelAt st j).max_run_size := by
  by_cases hji : j = i
  · subst hji
    rw [levelAt_doMerge_cur st j h]
    exact ⟨rfl, rfl⟩
  · by_cases hjn : j = i + 1
    · subst hjn
      rw [levelAt_doMerge_next st i h]
      exact ⟨rfl, rfl⟩
    · rw [levelAt_doMerge_other st i j hji hjn]
      exact ⟨rfl, rfl⟩

theorem merge_downAux_shape :
    ∀ (gas : Nat) (st : LSMTree) (i : Nat) (s : LSMTree),
      merge_downAux gas st i = .ok s →
      s.buffer = st.buffer ∧ s.buffer_max = st.buffer_max ∧
      s.rnum = st.rnum ∧ s.rden = st.rden ∧
      s.levels.length = st.levels.length ∧
      (∀ j, (levelAt s j).max_runs = (levelAt st j).max_runs ∧
        (levelAt s j).max_run_size = (levelAt st j).max_run_size) := by
  intro gas
  induction gas with
  | zero =>
    intro st i s h
    injection h with h
    subst h
    exact ⟨rfl, rfl, rfl, rfl, rfl, fun j => ⟨rfl, rfl⟩⟩
  | succ g ih =>
    intro st i s h
    unfold merge_downAux at h
    split at h
    · injection h with h
      subst h
      exact ⟨rfl, rfl, rfl, rfl, rfl, fun j => ⟨rfl, rfl⟩⟩
    · rename_i hne
      split at h
      · exact absurd h (by simp)
      · rename_i hdeep
        have hlen : i + 1 < st.levels.length := by omega
        split at h
        · rename_i hrem
          split at h
          · exact absurd h (by simp)
          · rename_i s0 heq
            split at h
            · rename_i hpos
              injection h with h
              subst h
              obtain ⟨hb, hbm, hrn, hrd, hl, hattr⟩ := ih st (i + 1) s0 heq
              refine ⟨hb, hbm, hrn, hrd, by rw [doMerge_length, hl], fun j => ?_⟩
              have h0 := levelAt_doMerge_attrs s0 i (by omega) j
              exact ⟨h0.1.trans (hattr j).1, h0.2.trans (hattr j).2⟩
            · exact absurd h (by simp)
        · injection h with h
          subst h
          exact ⟨rfl, rfl, rfl, rfl, doMerge_length st i,
                 fun j => levelAt_doMerge_attrs st i hlen j⟩

theorem merge_downAux_below :
    ∀ (gas : Nat) (st : LSMTree) (i : Nat) (s : LSMTree),
      merge_downAux gas st i = .ok s →
      ∀ j, j < i → levelAt s j = levelAt st j := by
  intro gas
  induction gas with
  | zero =>
    intro st i s h
    injection h with h
    subst h
    intro j _
    rfl
  | succ g ih =>
    intro st i s h
    unfold merge_downAux at h
    split at h
    · injection h with h
      subst h
      intro j _
      rfl
    · split at h
      · exact absurd h (by simp)
      · split at h
        · split at h
          · exact absurd h (by simp)
          · rename_i s0 heq
            split at h
            · injection h with h
              subst h
              intro j hj
              rw [levelAt_doMerge_other s0 i j (by omega) (by omega)]
              exact ih st (i + 1) s0 heq j (by omega)
            · exact absurd h (by simp)
        · injection h with h
          subst h
          intro j hj
          exact levelAt_doMerge_other st i j (by omega) (by omega)

theorem msizeOf_congr (s0 st : LSMTree) (i : Nat)
    (hl : levelAt s0 i = levelAt st i) (hrn : s0.rnum = st.rnum) (hrd : s0.rden = st.rden) :
    msizeOf s0 i = msizeOf st i := by
  unfold msizeOf
  rw [hl, hrn, hrd]

theorem mergeBatch_congr (s0 st : LSMTree) (i : Nat)
    (hl : levelAt s0 i = levelAt st i) (hrn : s0.rnum = st.rnum) (hrd : s0.rden = st.rden) :
    mergeBatch s0 i = mergeBatch st i := by
  unfold mergeBatch
  rw [hl, msizeOf_congr s0 st i hl hrn hrd]

theorem mergeOut_congr (s0 st : LSMTree) (i : Nat)
    (hl : levelAt s0 i = levelAt st i) (hrn : s0.rnum = st.rnum) (hrd : s0.rden = st.rden)
    (hlen : s0.levels.length = st.levels.length) :
    mergeOut s0 i = mergeOut st i := by
  unfold mergeOut
  rw [mergeBatch_congr s0 st i hl hrn hrd, hlen]

theorem merge_downAux_cur (gas : Nat) (st : LSMTree) (i : Nat) (s : LSMTree)
    (hg : gas = st.levels.length - i) (h : merge_downAux gas st i = .ok s) :
    ((levelAt st i).runs ≠ [] ∧
      levelAt s i = { levelAt st i with runs := (levelAt st i).runs.drop (msizeOf st i) })
    ∨ ((levelAt st i).runs = [] ∧ s = st) := by
  cases gas with
  | zero =>
    injection h with h
    subst h
    right
    refine ⟨?_, rfl⟩
    have hle : st.levels.length ≤ i := by omega
    rw [levelAt, getD_default st.levels i hle]
    rfl
  | succ g =>
    unfold merge_downAux at h
    split at h
    · rename_i hemp
      injection h with h
      subst h
      exact Or.inr ⟨List.isEmpty_iff.mp hemp, rfl⟩
    · rename_i hemp
      split at h
      · exact absurd h (by simp)
      · rename_i hdeep
        have hlen : i + 1 < st.levels.length := by omega
        split at h
        · split at h
          · exact absurd h (by simp)
          · rename_i s0 heq
            split at h
            · injection h with h
              subst h
              left
              refine ⟨fun he => hemp (by simp [he]), ?_⟩
              have hbelow : levelAt s0 i = levelAt st i :=
                merge_downAux_below g st (i + 1) s0 heq i (by omega)
              obtain ⟨_, _, hrn, hrd, hl, _⟩ := merge_downAux_shape g st (i + 1) s0 heq
              rw [levelAt_doMerge_cur s0 i (by omega), hbelow,
                  msizeOf_congr s0 st i hbelow hrn hrd]
            · exact absurd h (by simp)
        · injection h with h
          subst h
          left
          exact ⟨fun he => hemp (by simp [he]), levelAt_doMerge_cur st i hlen⟩

theorem set_oob : ∀ (L : List Level) (m : Nat) (x : Level), L.length ≤ m → L.set m x = L := by
  intro L
  induction L with
  | nil => intro m x _; rfl
  | cons a t ih =>
    intro m x h
    cases m with
    | zero => simp at h
    | succ n => simpa using ih n x (by simpa using h)

theorem drainAux_length_le : ∀ (f : Nat) (c : MergeContext), (drainAux f c).length ≤ f := by
  intro f
  induction f with
  | zero => intro c; simp [drainAux]
  | succ g ih =>
    intro c
    unfold drainAux
    split
    · simp
    · simpa using Nat.succ_le_succ (ih _)

theorem sum_len_le (B : Nat) :
    ∀ (L : List Run), (∀ r ∈ L, r.entries.length ≤ B) →
      ((L.map Run.entries).map List.length).sum ≤ L.length * B := by
  intro L
  induction L with
  | nil => intro _; simp
  | cons x xs ih =>
    intro h
    have hx : x.entries.length ≤ B := h x (List.mem_cons_self x xs)
    have hxs := ih (fun r hr => h r (List.mem_cons_of_mem x hr))
    simp only [List.map_cons, List.sum_cons, List.length_cons]
    calc x.entries.length + ((xs.map Run.entries).map List.length).sum
        ≤ B + xs.length * B := Nat.add_le_add hx hxs
      _ = (xs.length + 1) * B := by ring

theorem mergeBatch_length_le (st : LSMTree) (i : Nat) (B : Nat)
    (hcap : ∀ r ∈ (levelAt st i).runs, r.entries.length ≤ B) :
    (mergeBatch st i).length ≤ msizeOf st i * B := by
  unfold mergeBatch drainList
  refine le_trans (drainAux_length_le _ _) ?_
  unfold ctxSize
  refine le_trans (sum_len_le B _ (fun r hr => hcap r (List.mem_of_mem_take hr))) ?_
  have : ((levelAt st i).runs.take (msizeOf st i)).length ≤ msizeOf st i := by
    simp [List.length_take]
  exact Nat.mul_le_mul_right B this

theorem mergeOut_length_le (st : LSMTree) (i : Nat) (B : Nat)
    (hcap : ∀ r ∈ (levelAt st i).runs, r.entries.length ≤ B) :
    (mergeOut st i).length ≤ msizeOf st i * B := by
  unfold mergeOut
  split
  · exact le_trans (List.length_filter_le _ _) (mergeBatch_length_le st i B hcap)
  · exact mergeBatch_length_le st i B hcap

theorem msizeOf_le_max_runs (st : LSMTree) (i : Nat)
    (hnum : st.rnum ≤ st.rden) (hden : 0 < st.rden) :
    msizeOf st i ≤ (levelAt st i).max_runs := by
  refine le_trans (Nat.min_le_left _ _) ?_
  calc st.rnum * (levelAt st i).max_runs / st.rden
      ≤ st.rden * (levelAt st i).max_runs / st.rden :=
        Nat.div_le_div_right (Nat.mul_le_mul_right _ hnum)
    _ = (levelAt st i).max_runs := Nat.mul_div_cancel_left _ hden

theorem doMerge_inv (st : LSMTree) (i : Nat)
    (hlen : i + 1 < st.levels.length)
    (hinv : Inv st)
    (hrem : 0 < (levelAt st (i + 1)).remaining)
    (hnum : st.rnum ≤ st.rden) (hden : 0 < st.rden)
    (hgrow : (levelAt st i).max_runs * (levelAt st i).max_run_size ≤
      (levelAt st (i + 1)).max_run_size) :
    Inv (doMerge st i) := by
  have hi : i < st.levels.length := by omega
  have hokCur : LevelOk (levelAt st i) := hinv.2 _ (getD_mem st.levels i hi)
  have hokNext : LevelOk (levelAt st (i + 1)) := hinv.2 _ (getD_mem st.levels (i + 1) hlen)
  constructor
  · exact hinv.1
  · intro l hl
    rcases List.mem_or_eq_of_mem_set hl with hl2 | rfl
    · rcases List.mem_or_eq_of_mem_set hl2 with hl3 | rfl
      · exact hinv.2 l hl3
      · constructor
        · simp only [List.length_append, List.length_singleton]
          unfold Level.remaining at hrem
          omega
        · intro r hr
          rcases List.mem_append.mp hr with hr1 | hr2
          · exact hokNext.2 r hr1
          · have hrq : r = ⟨mergeOut st i⟩ := by simpa using hr2
            subst hrq
            calc (mergeOut st i).length
                ≤ msizeOf st i * (levelAt st i).max_run_size :=
                  mergeOut_length_le st i _ hokCur.2
              _ ≤ (levelAt st i).max_runs * (levelAt st i).max_run_size :=
                  Nat.mul_le_mul_right _ (msizeOf_le_max_runs st i hnum hden)
              _ ≤ (levelAt st (i + 1)).max_run_size := hgrow
    · constructor
      · simpa using le_trans (Nat.sub_le _ _) hokCur.1
      · intro r hr
        exact hokCur.2 r (List.mem_of_mem_drop hr)

theorem merge_downAux_inv :
    ∀ (gas : Nat) (st : LSMTree) (i : Nat) (s : LSMTree),
      Wf st → Inv st → merge_downAux gas st i = .ok s → Inv s := by
  intro gas
  induction gas with
  | zero =>
    intro st i s _ hinv h
    injection h with h
    subst h
    exact hinv
  | succ g ih =>
    intro st i s hwf hinv h
    unfold merge_downAux at h
    split at h
    · injection h with h
      subst h
      exact hinv
    · split at h
      · exact absurd h (by simp)
      · rename_i hdeep
        have hlen : i + 1 < st.levels.length := by omega
        split at h
        · split at h
          · exact absurd h (by simp)
          · rename_i s0 heq
            split at h
            · rename_i hpos
              injection h with h
              subst h
              obtain ⟨_, _, hrn, hrd, hl, hattr⟩ := merge_downAux_shape g st (i + 1) s0 heq
              have hinv0 : Inv s0 := ih st (i + 1) s0 hwf hinv heq
              refine doMerge_inv s0 i (by omega) hinv0 hpos ?_ ?_ ?_
              · rw [hrn, hrd]; exact hwf.2.2.1
              · rw [hrd]; exact hwf.2.1
              · rw [(hattr i).1, (hattr i).2, (hattr (i + 1)).2]
                exact hwf.2.2.2.2.2 i (by omega)
            · exact absurd h (by simp)
        · rename_i hrem
          injection h with h
          subst h
          refine doMerge_inv st i hlen hinv ?_ hwf.2.2.1 hwf.2.1
            (hwf.2.2.2.2.2 i (by omega))
          omega

theorem foldl_min_achieved :
    ∀ (es : List entry_t) (a : Int),
      es.foldl (fun m x => if m ≤ x.key then m else x.key) a = a ∨
      ∃ e ∈ es, es.foldl (fun m x => if m ≤ x.key then m else x.key) a = e.key := by
  intro es
  induction es with
  | nil => intro a; exact Or.inl rfl
  | cons x xs ih =>
    intro a
    rcases ih (if a ≤ x.key then a else x.key) with h | ⟨e, he, hk⟩
    · by_cases hax : a ≤ x.key
      · left
        simp only [List.foldl_cons]
        rw [h]
        simp [hax]
      · right
        refine ⟨x, List.mem_cons_self x xs, ?_⟩
        simp only [List.foldl_cons]
        rw [h]
        simp [hax]
    · right
      exact ⟨e, List.mem_cons_of_mem x he, by simp only [List.foldl_cons]; exact hk⟩

theorem sum_le_pointwise (f : List entry_t → List entry_t) :
    ∀ (L : List (List entry_t)), (∀ s ∈ L, (f s).length ≤ s.length) →
      ((L.map f).map List.length).sum ≤ (L.map List.length).sum := by
  intro L
  induction L with
  | nil => intro _; simp
  | cons x xs ih =>
    intro h
    simp only [List.map_cons, List.sum_cons]
    exact Nat.add_le_add (h x (List.mem_cons_self x xs))
      (ih (fun s hs => h s (List.mem_cons_of_mem x hs)))

theorem sum_lt_of_mem (f : List entry_t → List entry_t) :
    ∀ (L : List (List entry_t)), (∀ s ∈ L, (f s).length ≤ s.length) →
      ∀ s0 ∈ L, (f s0).length < s0.length →
      ((L.map f).map List.length).sum < (L.map List.length).sum := by
  intro L
  induction L with
  | nil => intro _ s0 h0; simp at h0
  | cons x xs ih =>
    intro h s0 h0 hlt
    simp only [List.map_cons, List.sum_cons]
    rcases List.mem_cons.mp h0 with hxeq | hmem
    · have hlt2 : (f x).length < x.length := hxeq ▸ hlt
      exact Nat.add_lt_add_of_lt_of_le hlt2
        (sum_le_pointwise f xs (fun s hs => h s (List.mem_cons_of_mem x hs)))
    · exact Nat.add_lt_add_of_le_of_lt (h x (List.mem_cons_self x xs))
        (ih (fun s hs => h s (List.mem_cons_of_mem x hs)) s0 hmem hlt)

theorem next_size_lt (c : MergeContext) (h : c.done = false) :
    ctxSize (c.next).2 < ctxSize c := by
  have hex : ∃ s ∈ c.streams, s.isEmpty = false := by
    unfold MergeContext.done at h
    rcases List.all_eq_false.mp h with ⟨s, hs, hns⟩
    exact ⟨s, hs, by revert hns; cases s.isEmpty <;> simp⟩
  obtain ⟨s1, hs1, hne1⟩ := hex
  have hhead : ∃ e1, s1.head? = some e1 := by
    cases s1 with
    | nil => simp at hne1
    | cons a t => exact ⟨a, rfl⟩
  obtain ⟨e1, he1⟩ := hhead
  have hmemh : e1 ∈ c.heads := by
    unfold MergeContext.heads
    exact List.mem_filterMap.mpr ⟨s1, hs1, he1⟩
  have hne : c.heads ≠ [] := List.ne_nil_of_mem hmemh
  cases hh : c.heads with
  | nil => exact absurd hh hne
  | cons e0 es =>
    have hmin : c.minHeadKey =
        some (es.foldl (fun m x => if m ≤ x.key then m else x.key) e0.key) := by
      unfold MergeContext.minHeadKey
      rw [hh]
    set k := es.foldl (fun m x => if m ≤ x.key then m else x.key) e0.key with hk
    have hach : ∃ e ∈ c.heads, e.key = k := by
      rcases foldl_min_achieved es e0.key with ha | ⟨e, he, hke⟩
      · exact ⟨e0, by rw [hh]; exact List.mem_cons_self e0 es, ha.symm⟩
      · exact ⟨e, by rw [hh]; exact List.mem_cons_of_mem e0 he, hke.symm⟩
    obtain ⟨ew, hwmem, hwkey⟩ := hach
    obtain ⟨sw, hswmem, hswhead⟩ := List.mem_filterMap.mp hwmem
    have hnext : (c.next).2.streams = c.streams.map (fun s =>
        match s with
        | [] => []
        | e :: rest => if e.key == k then rest else e :: rest) := by
      unfold MergeContext.next
      rw [hmin]
    unfold ctxSize
    rw [hnext]
    refine sum_lt_of_mem _ c.streams ?_ sw hswmem ?_
    · intro s _
      cases s with
      | nil => simp
      | cons a t =>
        by_cases hak : a.key == k
        · simp [hak]
        · simp [hak]
    · cases sw with
      | nil => simp at hswhead
      | cons a t =>
        have ha : a = ew := by
          injection hswhead
        subst ha
        have : (a.key == k) = true := beq_iff_eq.mpr hwkey
        simp [this]

theorem ctxSize_zero_done (c : MergeContext) (h : ctxSize c = 0) : c.done = true := by
  unfold ctxSize at h
  unfold MergeContext.done
  rw [List.all_eq_true]
  intro s hs
  have hlen : s.length = 0 := by
    have := List.sum_eq_zero_iff.mp h (s.length) (List.mem_map_of_mem List.length hs)
    exact this
  cases s with
  | nil => rfl
  | cons a t => simp at hlen

theorem drainAux_fuel_irrel :
    ∀ (f1 f2 : Nat) (c : MergeContext), ctxSize c ≤ f1 → ctxSize c ≤ f2 →
      drainAux f1 c = drainAux f2 c := by
  intro f1
  induction f1 with
  | zero =>
    intro f2 c h1 _
    have hdone := ctxSize_zero_done c (by omega)
    cases f2 with
    | zero => rfl
    | succ m =>
      show drainAux 0 c = drainAux (m + 1) c
      unfold drainAux
      simp [hdone]
  | succ g ih =>
    intro f2 c h1 h2
    cases f2 with
    | zero =>
      have hdone := ctxSize_zero_done c (by omega)
      unfold drainAux
      simp [hdone]
    | succ m =>
      unfold drainAux
      by_cases hdone : c.done
      · simp [hdone]
      · have hd : c.done = false := by revert hdone; cases c.done <;> simp
        have hlt := next_size_lt c hd
        simp only [hd]
        rw [ih m (c.next).2 (by omega) (by omega)]

/-- The exact fuel used by drainList is always sufficient: draining
with any fuel at least the remaining entry count produces the same
list, so the model cuts off no iteration of the source loop. -/
theorem drainList_complete (c : MergeContext) (f : Nat) (hf : ctxSize c ≤ f) :
    drainList c = drainAux f c := by
  unfold drainList
  exact drainAux_fuel_irrel (ctxSize c) f c (le_refl _) hf

theorem drainPrintAux_fuel_irrel :
    ∀ (f1 f2 : Nat) (c : MergeContext), ctxSize c ≤ f1 → ctxSize c ≤ f2 →
      drainPrintAux f1 c = drainPrintAux f2 c := by
  intro f1
  induction f1 with
  | zero =>
    intro f2 c h1 _
    have hdone := ctxSize_zero_done c (by omega)
    cases f2 with
    | zero => rfl
    | succ m =>
      show drainPrintAux 0 c = drainPrintAux (m + 1) c
      unfold drainPrintAux
      simp [hdone]
  | succ g ih =>
    intro f2 c h1 h2
    cases f2 with
    | zero =>
      have hdone := ctxSize_zero_done c (by omega)
      unfold drainPrintAux
      simp [hdone]
    | succ m =>
      unfold drainPrintAux
      by_cases hdone : c.done
      · simp [hdone]
      · have hd : c.done = false := by revert hdone; cases c.done <;> simp
        have hlt := next_size_lt c hd
        simp only [hd]
        rw [ih m (c.next).2 (by omega) (by omega)]

theorem insertByKey_length (e : entry_t) :
    ∀ l : List entry_t, (insertByKey e l).length = l.length + 1 := by
  intro l
  induction l with
  | nil => rfl
  | cons x xs ih =>
    unfold insertByKey
    split
    · rfl
    · simp [ih]

theorem bufPut_length (b : List entry_t) (cap : Nat) (k v : Int) (b' : List entry_t)
    (h : bufPut b cap k v = some b') (hb : b.length ≤ cap) : b'.length ≤ cap := by
  unfold bufPut at h
  split at h
  · injection h with h
    subst h
    simpa using hb
  · split at h
    · rename_i hlt
      injection h with h
      subst h
      rw [insertByKey_length]
      omega
    · exact absurd h (by simp)

theorem levelAt_set0_attrs (s : LSMTree) (rs : List Run) (j : Nat) :
    (levelAt { s with levels := s.levels.set 0 { levelAt s 0 with runs := rs } } j).max_runs =
      (levelAt s j).max_runs ∧
    (levelAt { s with levels := s.levels.set 0 { levelAt s 0 with runs := rs } } j).max_run_size =
      (levelAt s j).max_run_size := by
  unfold levelAt
  by_cases hj : j = 0
  · subst hj
    by_cases h0 : 0 < s.levels.length
    · rw [getD_set_self _ _ _ h0]
      exact ⟨rfl, rfl⟩
    · rw [set_oob s.levels 0 _ (by omega)]
      exact ⟨rfl, rfl⟩
  · rw [getD_set_ne _ _ _ _ (fun h => hj h.symm)]
    exact ⟨rfl, rfl⟩

theorem flushPut_shape (s : LSMTree) (k v : Int) (s' : LSMTree)
    (h : flushPut s k v = .ok s') :
    s'.buffer_max = s.buffer_max ∧ s'.rnum = s.rnum ∧ s'.rden = s.rden ∧
    s'.levels.length = s.levels.length ∧
    (∀ j, (levelAt s' j).max_runs = (levelAt s j).max_runs ∧
      (levelAt s' j).max_run_size = (levelAt s j).max_run_size) := by
  unfold flushPut at h
  split at h
  · injection h with h
    subst h
    exact ⟨rfl, rfl, rfl, by simp, fun j => levelAt_set0_attrs s _ j⟩
  · exact absurd h (by simp)

theorem flushPut_inv (s : LSMTree) (k v : Int) (s' : LSMTree)
    (h : flushPut s k v = .ok s')
    (hinv : Inv s)
    (hlen0 : (levelAt s 0).runs.length < (levelAt s 0).max_runs)
    (hbufcap : s.buffer.length ≤ (levelAt s 0).max_run_size) :
    Inv s' := by
  have h0 : 0 < s.levels.length := by
    by_contra h0
    have : levelAt s 0 = dLevel := by
      unfold levelAt
      exact getD_default s.levels 0 (by omega)
    rw [this] at hlen0
    simp [dLevel] at hlen0
  have hok0 : LevelOk (levelAt s 0) := hinv.2 _ (getD_mem s.levels 0 h0)
  unfold flushPut at h
  split at h
  · rename_i b heqb
    injection h with h
    subst h
    constructor
    · exact bufPut_length [] _ k v b heqb (Nat.zero_le _)
    · intro l hl
      rcases List.mem_or_eq_of_mem_set hl with hl2 | rfl
      · exact hinv.2 l hl2
      · constructor
        · simp only [List.length_append, List.length_singleton]
          omega
        · intro r hr
          rcases List.mem_append.mp hr with hr1 | hr2
          · exact hok0.2 r hr1
          · have hrq : r = ⟨s.buffer⟩ := by simpa using hr2
            subst hrq
            exact hbufcap
  · exact absurd h (by simp)

theorem put_shape (st : LSMTree) (k v : Int) (s : LSMTree) (h : st.put k v = .ok s) :
    s.buffer_max = st.buffer_max ∧ s.rnum = st.rnum ∧ s.rden = st.rden ∧
    s.levels.length = st.levels.length ∧
    (∀ j, (levelAt s j).max_runs = (levelAt st j).max_runs ∧
      (levelAt s j).max_run_size = (levelAt st j).max_run_size) := by
  unfold LSMTree.put at h
  split at h
  · injection h with h
    subst h
    exact ⟨rfl, rfl, rfl, rfl, fun j => ⟨rfl, rfl⟩⟩
  · split at h
    · split at h
      · exact absurd h (by simp)
      · rename_i s0 heq
        obtain ⟨h1, h2, h3, h4, h5⟩ := flushPut_shape s0 k v s h
        obtain ⟨_, hbm, hrn, hrd, hl, hattr⟩ :=
          merge_downAux_shape (st.levels.length - 0) st 0 s0 heq
        exact ⟨h1.trans hbm, h2.trans hrn, h3.trans hrd, h4.trans hl,
               fun j => ⟨(h5 j).1.trans (hattr j).1, (h5 j).2.trans (hattr j).2⟩⟩
    · exact flushPut_shape st k v s h

theorem wf_congr (st s : LSMTree)
    (hbm : s.buffer_max = st.buffer_max) (hrn : s.rnum = st.rnum) (hrd : s.rden = st.rden)
    (hl : s.levels.length = st.levels.length)
    (hattr : ∀ j, (levelAt s j).max_runs = (levelAt st j).max_runs ∧
      (levelAt s j).max_run_size = (levelAt st j).max_run_size)
    (hwf : Wf st) : Wf s := by
  obtain ⟨hne, hden, hnum, hbuf, hfloor, hgrow⟩ := hwf
  refine ⟨?_, ?_, ?_, ?_, ?_, ?_⟩
  · have hpos : 0 < st.levels.length := List.length_pos.mpr hne
    intro hnil
    rw [hnil] at hl
    simp at hl
    omega
  · rw [hrd]; exact hden
  · rw [hrn, hrd]; exact hnum
  · rw [hbm, (hattr 0).2]; exact hbuf
  · intro i hi
    rw [hrn, hrd, (hattr i).1]
    exact hfloor i (by omega)
  · intro i hi
    rw [(hattr i).1, (hattr i).2, (hattr (i + 1)).2]
    exact hgrow i (by omega)

theorem put_wf (st : LSMTree) (k v : Int) (s : LSMTree)
    (hwf : Wf st) (h : st.put k v = .ok s) : Wf s := by
  obtain ⟨h1, h2, h3, h4, h5⟩ := put_shape st k v s h
  exact wf_congr st s h1 h2 h3 h4 h5 hwf

theorem put_inv (st : LSMTree) (k v : Int) (s : LSMTree)
    (hwf : Wf st) (hinv : Inv st) (h : st.put k v = .ok s) : Inv s := by
  have h0 : 0 < st.levels.length := List.length_pos.mpr hwf.1
  unfold LSMTree.put at h
  split at h
  · rename_i b heqb
    injection h with h
    subst h
    exact ⟨bufPut_length _ _ k v b heqb hinv.1, hinv.2⟩
  · split at h
    · rename_i hrem
      split at h
      · exact absurd h (by simp)
      · rename_i s0 heq
        obtain ⟨hb, hbm, hrn, hrd, hl, hattr⟩ :=
          merge_downAux_shape (st.levels.length - 0) st 0 s0 heq
        have hinv0 : Inv s0 := merge_downAux_inv (st.levels.length - 0) st 0 s0 hwf hinv heq
        have hcur := merge_downAux_cur (st.levels.length - 0) st 0 s0 rfl heq
        have hmax1 : 1 ≤ st.rnum * (levelAt st 0).max_runs / st.rden :=
          hwf.2.2.2.2.1 0 h0
        have hM1 : 1 ≤ (levelAt st 0).max_runs := by
          by_contra hM
          have hM0 : (levelAt st 0).max_runs = 0 := by omega
          rw [hM0] at hmax1
          simp at hmax1
        have hlen0 : (levelAt s0 0).runs.length < (levelAt s0 0).max_runs := by
          rcases hcur with ⟨hne, heqlvl⟩ | ⟨hnil, hs0⟩
          · have hcap0 : (levelAt st 0).runs.length ≤ (levelAt st 0).max_runs :=
              (hinv.2 _ (getD_mem st.levels 0 h0)).1
            have hfulllen : (levelAt st 0).max_runs ≤ (levelAt st 0).runs.length := by
              unfold Level.remaining at hrem
              omega
            have hms : 1 ≤ msizeOf st 0 := by
              unfold msizeOf
              omega
            rw [heqlvl]
            simp only [List.length_drop]
            have := (hattr 0).1
            omega
          · have hz : (levelAt st 0).runs.length = 0 := by rw [hnil]; rfl
            rw [hs0]
            omega
        refine flushPut_inv s0 k v s h hinv0 hlen0 ?_
        rw [hb, (hattr 0).2]
        exact le_trans hinv.1 hwf.2.2.2.1
    · rename_i hrem
      have hlen0 : (levelAt st 0).runs.length < (levelAt st 0).max_runs := by
        unfold Level.remaining at hrem
        omega
      exact flushPut_inv st k v s h hinv hlen0 (le_trans hinv.1 hwf.2.2.2.1)

theorem loadAux_inv :
    ∀ (f : Nat) (st : LSMTree) (bs : List Nat) (s : LSMTree),
      Wf st → Inv st → loadAux f st bs = .ok s → Inv s := by
  intro f
  induction f with
  | zero =>
    intro st bs s _ hinv h
    injection h with h
    subst h
    exact hinv
  | succ g ih =>
    intro st bs s hwf hinv h
    unfold loadAux at h
    split at h
    · injection h with h
      subst h
      exact hinv
    · rename_i e rest heq
      split at h
      · exact absurd h (by simp)
      · rename_i s1 hput
        exact ih s1 rest s (put_wf st _ _ s1 hwf hput) (put_inv st _ _ s1 hwf hinv hput) h

theorem C9_aux :
    ∀ (gas : Nat) (st : LSMTree) (i : Nat), i < st.levels.length →
      gas = st.levels.length - i →
      (((levelAt st i).runs = [] → merge_downAux gas st i = .ok st) ∧
       (merge_downAux gas st i = .error .TreeFull ↔ chainAux gas st i = true)) := by
  intro gas
  induction gas with
  | zero =>
    intro st i hi hg
    omega
  | succ g ih =>
    intro st i hi hg
    constructor
    · intro hemp
      unfold merge_downAux
      simp [hemp]
    · unfold merge_downAux chainAux
      by_cases hemp : (levelAt st i).runs.isEmpty
      · simp [hemp]
      · by_cases hdeep : st.levels.length ≤ i + 1
        · simp [hemp, hdeep]
        · have hlen : i + 1 < st.levels.length := by omega
          have ihs := (ih st (i + 1) hlen (by omega)).2
          by_cases hrem : (levelAt st (i + 1)).remaining = 0
          · cases hmd : merge_downAux g st (i + 1) with
            | error e =>
              cases e with
              | TreeFull =>
                have hchain : chainAux g st (i + 1) = true := ihs.mp hmd
                simp [hemp, hdeep, hrem, hmd, hchain]
              | AssertFail =>
                have hchain : chainAux g st (i + 1) = false := by
                  by_contra hc
                  have := ihs.mpr (by revert hc; cases chainAux g st (i + 1) <;> simp)
                  rw [hmd] at this
                  exact absurd this (by simp)
                simp [hemp, hdeep, hrem, hmd, hchain]
              | FileNotFound =>
                have hchain : chainAux g st (i + 1) = false := by
                  by_contra hc
                  have := ihs.mpr (by revert hc; cases chainAux g st (i + 1) <;> simp)
                  rw [hmd] at this
                  exact absurd this (by simp)
                simp [hemp, hdeep, hrem, hmd, hchain]
              | CorruptInput =>
                have hchain : chainAux g st (i + 1) = false := by
                  by_contra hc
                  have := ihs.mpr (by revert hc; cases chainAux g st (i + 1) <;> simp)
                  rw [hmd] at this
                  exact absurd this (by simp)
                simp [hemp, hdeep, hrem, hmd, hchain]
            | ok s0 =>
              have hchain : chainAux g st (i + 1) = false := by
                by_contra hc
                have := ihs.mpr (by revert hc; cases chainAux g st (i + 1) <;> simp)
                rw [hmd] at this
                exact absurd this (by simp)
              by_cases hpos : 0 < (levelAt s0 (i + 1)).remaining
              · simp [hemp, hdeep, hrem, hmd, hchain, hpos]
              · simp [hemp, hdeep, hrem, hmd, hchain, hpos]
          · simp [hemp, hdeep, hrem]

/-- Model validation: end-to-end scenario 1 of the spec (buffer
capacity 2, depth 2, fanout 2, merge_ratio 0.5): after p 1 100 and
p 2 200, g 1 prints 100 and g 3 prints the empty line. -/
theorem model_scenario_one :
    (applyOps (lsmInit 2 2 2 1 2) [.put 1 100, .put 2 200]).map
      (fun t => (t.get 1, t.get 3)) = .ok (some 100, none) := rfl

/-- Model validation: scenario 2 of the spec: a second put on the same
key updates in place and g 1 prints 101. -/
theorem model_scenario_two :
    (applyOps (lsmInit 2 2 2 1 2) [.put 1 100, .put 1 101]).map
      (fun t => t.get 1) = .ok (some 101) := rfl

/-- Model validation: scenario 3 of the spec: key 1 has been flushed to
level 0 and g 1 still prints 100. -/
theorem model_scenario_three :
    (applyOps (lsmInit 2 2 2 1 2)
        [.put 1 100, .put 2 200, .put 3 300, .put 4 400]).map
      (fun t => t.get 1) = .ok (some 100) := rfl

/-- Model validation: scenario 4 of the spec: p 1 100 then d 1 makes
g 1 print the empty line. -/
theorem model_scenario_four :
    (applyOps (lsmInit 2 2 2 1 2) [.put 1 100, .del 1]).map
      (fun t => t.get 1) = .ok none := rfl

/-- Model validation: scenario 5 of the spec: r 1 3 prints the two
live pairs below the half-open upper bound, space separated. -/
theorem model_scenario_five :
    (applyOps (lsmInit 2 2 2 1 2) [.put 1 10, .put 2 20, .put 3 30]).map
      (fun t => t.range 1 3) = .ok "1:10 2:20\n" := rfl

/-- C1: the code evaluated at a level whose two runs both hold key 1.
merge_down adds runs[0], runs[1], ... to the merge context, i.e. the
oldest run first; with the tie-break that the earliest-added stream
wins, the entry (1, 10) of the OLDEST run survives the compaction and
the entry (1, 20) of the newest run is discarded.  The claim states the runs are
fed newest-first so that the newer entry (1, 20) wins; the compacted
run would then be [(1, 20)], not the [(1, 10)] the code produces. -/
theorem C1_code_evaluation :
    (stC1.merge_down 0).map (fun s => (levelAt s 1).runs.map Run.entries) =
      .ok [[⟨1, 10⟩]] ∧
    ([[(⟨1, 10⟩ : entry_t)]] : List (List entry_t)) ≠ [[⟨1, 20⟩]] := by
  exact ⟨rfl, by decide⟩

/-- C2: freshness violated on a reachable trace.  After opsC2 (buffer
capacity 1, depth 3, fanout 2, merge_ratio 1) the two level-1 runs
holding (1, 10) and (1, 11) are compacted together; the oldest-first
feeding order lets the stale (1, 10) win, the fresher (1, 11) is
discarded, and get(1) prints 10 although the latest write on key 1 was
put(1, 11). -/
theorem C2_freshness_violation :
    (applyOps initC2 opsC2).map (fun t => t.get 1) = .ok (some 10) ∧
    latestWrite opsC2 1 = some (some 11) ∧
    (some (10 : Int) : Option Int) ≠ some 11 := by
  exact ⟨rfl, rfl, by decide⟩

/-- C3: the assertion after the recursive merge_down fires for
merge_ratio 1/4 (which lies in (0, 1]) with fanout 2: the recursive
call computes merge_size = int(0.25 * 2) = 0, frees no slot of the
full next level, and next.remaining() == 0 still holds on return. -/
theorem C3_counterexample : stC3.merge_down 0 = .error .AssertFail := by
  exact rfl

/-- C4: the consequence half of the claim fails.  The trace opsC4
(buffer capacity 1, depth 2, fanout 2, merge_ratio 1) first drives
(1, 10) into the deepest level, then (third operation) deletes key 1;
the sixth operation merges the run [(1, TOMBSTONE)] into the deepest
level, where the tombstone is dropped — yet the deepest level still
contains the entry (1, 10) in its older run, and get(1) even resurrects
the deleted value 10.  The second conjunct exhibits the pre-merge
level-0 content [(1, TOMBSTONE)], [(3, 30)] about to be compacted. -/
theorem C4_counterexample :
    (applyOps initC4 opsC4).map
        (fun t => ((levelAt t 1).runs.map Run.entries, t.get 1)) =
      .ok ([[⟨1, 10⟩, ⟨2, 20⟩], [⟨3, 30⟩]], some 10) ∧
    (applyOps initC4 (opsC4.take 5)).map
        (fun t => (levelAt t 0).runs.map Run.entries) =
      .ok [[⟨1, VAL_TOMBSTONE⟩], [⟨3, 30⟩]] := by
  exact ⟨rfl, rfl⟩

/-- C5: the level-capacity invariant is not preserved for every
merge_ratio in (0, 1].  From the constructor state with buffer
capacity 1, depth 2, fanout 2 and merge_ratio 1/4, four puts leave
level 0 with three runs although max_runs is 2: the merge_down invoked
by the fourth put computes merge_size = int(0.25 * 2) = 0, erases no
runs, and the flush then appends a third run. -/
theorem C5_counterexample :
    (applyOps initC5 opsC5).map
        (fun t => ((levelAt t 0).runs.length, (levelAt t 0).max_runs)) =
      .ok (3, 2) ∧
    ¬ (3 ≤ 2) := by
  exact ⟨rfl, by decide⟩

/-- C6: a file ending with a partial record does not abort the load
with CorruptInput; the read loop simply stops.  On twelve bytes holding
one complete record (1, 10) plus four dangling bytes, load returns
successfully, having put the one complete record. -/
theorem C6_counterexample :
    initC6.load (some bs12) = .ok { initC6 with buffer := [⟨1, 10⟩] } ∧
    (Except.ok { initC6 with buffer := [⟨1, 10⟩] } : Except Err LSMTree) ≠
      .error .CorruptInput := by
  exact ⟨rfl, by decide⟩

/-- C7: range coverage violated on the same reachable trace as C2.
After opsC2 the latest write on key 1 is put(1, 11), so the claimed
output of range(1, 2) is the set containing 1:11 — but the compaction
discarded (1, 11) in favour of the stale (1, 10), and the code prints
1:10. -/
theorem C7_range_violation :
    (applyOps initC2 opsC2).map (fun t => t.range 1 2) = .ok "1:10\n" ∧
    latestWrite opsC2 1 = some (some 11) ∧
    "1:10\n" ≠ "1:11\n" := by
  exact ⟨rfl, rfl, by decide⟩

/-- C8: the output of range is not always free of a trailing space.
With buffer capacity 2, after put(1, 10) and del(2), range(1, 3) merges
the entries (1, 10) and (2, TOMBSTONE): the code prints the token 1:10,
sees the context not yet done and prints a separator space, then skips
the tombstone — producing a trailing space before the newline. -/
theorem C8_trailing_space :
    (applyOps initC8 [.put 1 10, .del 2]).map (fun t => t.range 1 3) =
      .ok "1:10 \n" ∧
    "1:10 \n" ≠ "1:10\n" := by
  exact ⟨rfl, by decide⟩

/-- C9: merge_down on a level with an empty run list is a no-op
returning the unchanged state, and merge_down fails with TreeFull
exactly when the chain condition holds: the walk from the invoked level
through full next levels reaches the deepest level with a nonempty run
list.  In particular (chain of length one) an invocation on the
nonempty deepest level fails with TreeFull, and every TreeFull failure
contains such a recursive invocation — no other situation produces
TreeFull. -/
theorem C9_characterization (st : LSMTree) (i : Nat) (hi : i < st.levels.length) :
    ((levelAt st i).runs = [] → st.merge_down i = .ok st) ∧
    (st.merge_down i = .error .TreeFull ↔ treeFullChain st i = true) := by
  exact C9_aux (st.levels.length - i) st i hi rfl

/-- C9 witness: on the saturated two-level tree stFull, merge_down
invoked on level 0 fails with TreeFull (the recursion reaches the
nonempty deepest level), matching the chain characterisation; the
no-op conjunct holds vacuously there. -/
theorem C9_witness :
    ((levelAt stFull 0).runs = [] → stFull.merge_down 0 = .ok stFull) ∧
    (stFull.merge_down 0 = .error .TreeFull ↔ treeFullChain stFull 0 = true) := by
  exact C9_characterization stFull 0 (by decide)

/-- C10: every completing merge_down on a nonempty non-deepest level i
leaves level i+1 holding a suffix of its previous runs (those not
consumed by a recursive merge) plus exactly one appended run, the one
holding the merged output — which may hold zero entries (all-tombstone
batch at the deepest destination) yet still occupies a slot. -/
theorem C10_appends_one_run (st : LSMTree) (i : Nat) (s : LSMTree)
    (hlen : i + 1 < st.levels.length)
    (hne : (levelAt st i).runs ≠ [])
    (hok : st.merge_down i = .ok s) :
    (levelAt s (i + 1)).runs =
      (levelAt st (i + 1)).runs.drop
        (if (levelAt st (i + 1)).remaining = 0 then msizeOf st (i + 1) else 0) ++
      [⟨mergeOut st i⟩] := by
  unfold LSMTree.merge_down at hok
  have hg : st.levels.length - i = (st.levels.length - i - 1) + 1 := by omega
  rw [hg] at hok
  unfold merge_downAux at hok
  split at hok
  · exact absurd (List.isEmpty_iff.mp (by assumption)) hne
  · split at hok
    · omega
    · split at hok
      · rename_i hrem
        split at hok
        · exact absurd hok (by simp)
        · rename_i s0 heq
          split at hok
          · injection hok with hok
            subst hok
            obtain ⟨_, _, hrn, hrd, hl, _⟩ := merge_downAux_shape _ st (i + 1) s0 heq
            have hbelow : levelAt s0 i = levelAt st i :=
              merge_downAux_below _ st (i + 1) s0 heq i (by omega)
            rw [if_pos hrem, levelAt_doMerge_next s0 i (by omega),
                mergeOut_congr s0 st i hbelow hrn hrd hl]
            have hcur := merge_downAux_cur (st.levels.length - i - 1) st (i + 1) s0
              (by omega) heq
            rcases hcur with ⟨_, hreceq⟩ | ⟨hnil, hs0⟩
            · rw [hreceq]
            · rw [hs0, hnil, List.drop_nil]
          · exact absurd hok (by simp)
      · rename_i hrem
        injection hok with hok
        subst hok
        rw [if_neg hrem, List.drop_zero, levelAt_doMerge_next st i hlen]

theorem mergeOut_eq_filter (st : LSMTree) (i : Nat) :
    mergeOut st i =
      (mergeBatch st i).filter
        (fun e => !(decide (i + 1 = st.levels.length - 1) && (e.val == VAL_TOMBSTONE))) := by
  unfold mergeOut
  split
  · rename_i hdeep
    exact List.filter_congr (fun e _ => by simp [hdeep])
  · rename_i hdeep
    have : (fun (e : entry_t) =>
        !(decide (i + 1 = st.levels.length - 1) && (e.val == VAL_TOMBSTONE))) =
        fun _ => true := by
      funext e
      simp [hdeep]
    rw [this, List.filter_true]

/-- C3 (amended): the assertion after the recursive merge_down holds
under the additional provisos the counterexample forces: the next
merge_size floor int(merge_ratio * max_runs) of the next level is at least 1 and
the next level respects its run-count capacity.  Then the completed
recursive merge leaves next.remaining() equal to merge_size >= 1. -/
theorem C3_amended (st : LSMTree) (i : Nat) (s : LSMTree)
    (hcap : (levelAt st (i + 1)).runs.length ≤ (levelAt st (i + 1)).max_runs)
    (hfloor : 1 ≤ st.rnum * (levelAt st (i + 1)).max_runs / st.rden)
    (hfull : (levelAt st (i + 1)).remaining = 0)
    (hok : st.merge_down (i + 1) = .ok s) :
    0 < (levelAt s (i + 1)).remaining := by
  unfold LSMTree.merge_down at hok
  have hcur := merge_downAux_cur (st.levels.length - (i + 1)) st (i + 1) s rfl hok
  have hmax1 : 1 ≤ (levelAt st (i + 1)).max_runs := by
    by_contra hM
    have hM0 : (levelAt st (i + 1)).max_runs = 0 := by omega
    rw [hM0] at hfloor
    simp at hfloor
  rcases hcur with ⟨hne, heq⟩ | ⟨hnil, _⟩
  · have hfulllen : (levelAt st (i + 1)).max_runs ≤ (levelAt st (i + 1)).runs.length := by
      unfold Level.remaining at hfull
      omega
    have hloweq : (levelAt st (i + 1)).runs.length = (levelAt st (i + 1)).max_runs := by
      omega
    have hms : 1 ≤ msizeOf st (i + 1) := by
      unfold msizeOf
      have : 1 ≤ (levelAt st (i + 1)).runs.length := by omega
      omega
    have hmsle : msizeOf st (i + 1) ≤ (levelAt st (i + 1)).runs.length :=
      Nat.min_le_right _ _
    rw [heq]
    unfold Level.remaining
    simp only [List.length_drop]
    omega
  · exfalso
    have : (levelAt st (i + 1)).runs.length = 0 := by rw [hnil]; rfl
    unfold Level.remaining at hfull
    omega

/-- C3 amended witness: with merge_ratio 1/2 and fanout 2 the floor is
1; level 1 of stW3 is full, merging it down completes (yielding sW3)
and leaves level 1 with one free slot. -/
theorem C3_amended_witness : 0 < (levelAt sW3 1).remaining := by
  exact C3_amended stW3 0 sW3 (by decide) (by decide) (by decide) rfl

/-- C4 (amended): during a completing merge_down the run written to the
next level consists exactly of the drained batch filtered by: drop an
entry iff the destination is the deepest level and its value is the
tombstone.  So tombstones are elided there and only there — but the
consequence of the claim must weaken to this appended run: older runs
already resident in the deepest level are not rewritten (see the
counterexample, where the deepest level keeps an older entry for the
deleted key). -/
theorem C4_amended (st : LSMTree) (i : Nat) (s : LSMTree)
    (hlen : i + 1 < st.levels.length)
    (hne : (levelAt st i).runs ≠ [])
    (hok : st.merge_down i = .ok s) :
    (levelAt s (i + 1)).runs.getLast? =
      some ⟨(mergeBatch st i).filter
        (fun e => !(decide (i + 1 = st.levels.length - 1) && (e.val == VAL_TOMBSTONE)))⟩ := by
  unfold LSMTree.merge_down at hok
  have hg : st.levels.length - i = (st.levels.length - i - 1) + 1 := by omega
  rw [hg] at hok
  unfold merge_downAux at hok
  split at hok
  · exact absurd (List.isEmpty_iff.mp (by assumption)) hne
  · split at hok
    · omega
    · split at hok
      · split at hok
        · exact absurd hok (by simp)
        · rename_i s0 heq
          split at hok
          · injection hok with hok
            subst hok
            obtain ⟨_, _, hrn, hrd, hl, _⟩ := merge_downAux_shape _ st (i + 1) s0 heq
            have hbelow : levelAt s0 i = levelAt st i :=
              merge_downAux_below _ st (i + 1) s0 heq i (by omega)
            rw [levelAt_doMerge_next s0 i (by omega),
                mergeOut_congr s0 st i hbelow hrn hrd hl, List.getLast?_concat,
                mergeOut_eq_filter st i]
          · exact absurd hok (by simp)
      · injection hok with hok
        subst hok
        rw [levelAt_doMerge_next st i hlen, List.getLast?_concat, mergeOut_eq_filter st i]

/-- C4 amended witness: merging the all-tombstone run of stC10 into the
empty deepest level appends the run holding the filtered batch; the
destination is the deepest level and the whole batch is tombstones, so
the appended run is empty. -/
theorem C4_amended_witness :
    (levelAt tC10 1).runs.getLast? =
      some ⟨(mergeBatch stC10 0).filter
        (fun e => !(decide (0 + 1 = stC10.levels.length - 1) && (e.val == VAL_TOMBSTONE)))⟩ := by
  exact C4_amended stC10 0 tC10 (by decide) (by decide) rfl

/-- C5 (amended): from any state satisfying the level-capacity
invariant together with the constructor facts Wf — which require in
particular int(merge_ratio * max_runs) >= 1 at every level, the proviso
the counterexample forces — every completing state-changing operation
(put, del, and load, which iterates put; get and range do not modify
the state) preserves the invariant. -/
theorem C5_amended (st : LSMTree) (hwf : Wf st) (hinv : Inv st) :
    (∀ k v s, st.put k v = .ok s → Inv s) ∧
    (∀ k s, st.del k = .ok s → Inv s) ∧
    (∀ file s, st.load file = .ok s → Inv s) := by
  refine ⟨fun k v s h => put_inv st k v s hwf hinv h,
          fun k s h => ?_, fun file s h => ?_⟩
  · unfold LSMTree.del at h
    exact put_inv st k VAL_TOMBSTONE s hwf hinv h
  · cases file with
    | none => exact absurd h (by simp [LSMTree.load])
    | some bs =>
      unfold LSMTree.load at h
      exact loadAux_inv bs.length st bs s hwf hinv h

/-- C5 amended witness: the constructor state with buffer capacity 1,
depth 2, fanout 2 and merge_ratio 1 satisfies Wf and the invariant, and
a put into it preserves the invariant. -/
theorem C5_amended_witness : Inv { lsmInit 1 2 2 1 1 with buffer := [⟨1, 10⟩] } := by
  exact (C5_amended (lsmInit 1 2 2 1 1) (by decide) (by decide)).1 1 10
    { lsmInit 1 2 2 1 1 with buffer := [⟨1, 10⟩] } rfl

theorem readEntry_some (bs : List Nat) (p : entry_t × List Nat)
    (h : readEntry bs = some p) : p.2.length + 8 = bs.length := by
  unfold readEntry at h
  split at h
  · exact absurd h (by simp)
  · rename_i hge
    injection h with h
    subst h
    simp only [List.length_drop]
    omega

theorem parseAux_fuel :
    ∀ (f g : Nat) (bs : List Nat), bs.length ≤ f → bs.length ≤ g →
      parseAux f bs = parseAux g bs := by
  intro f
  induction f with
  | zero =>
    intro g bs hf hg
    have hbs : bs = [] := List.length_eq_zero.mp (by omega)
    subst hbs
    cases g with
    | zero => rfl
    | succ m => rfl
  | succ m ih =>
    intro g bs hf hg
    cases g with
    | zero =>
      have hbs : bs = [] := List.length_eq_zero.mp (by omega)
      subst hbs
      rfl
    | succ n =>
      unfold parseAux
      cases heq : readEntry bs with
      | none => rfl
      | some p =>
        obtain ⟨e, rest⟩ := p
        have hrest : rest.length + 8 = bs.length := readEntry_some bs (e, rest) heq
        show e :: parseAux m rest = e :: parseAux n rest
        rw [ih n rest (by omega) (by omega)]

theorem loadAux_parse :
    ∀ (f : Nat) (st : LSMTree) (bs : List Nat), bs.length ≤ f →
      loadAux f st bs = putAll st (parseAux f bs) := by
  intro f
  induction f with
  | zero =>
    intro st bs hf
    rfl
  | succ g ih =>
    intro st bs hf
    unfold loadAux parseAux
    cases heq : readEntry bs with
    | none => rfl
    | some p =>
      obtain ⟨e, rest⟩ := p
      have hrest : rest.length + 8 = bs.length := readEntry_some bs (e, rest) heq
      show (match st.put e.key e.val with
            | .error err => .error err
            | .ok s => loadAux g s rest) = putAll st (e :: parseAux g rest)
      cases hput : st.put e.key e.val with
      | error err => simp [putAll, hput]
      | ok s1 =>
        simp only [putAll, hput]
        exact ih s1 rest (by omega)

/-- C6 (amended): load on an unopenable file fails with FileNotFound;
otherwise it performs exactly one put per complete fixed-width record
of the byte content, in order — a trailing partial record silently ends
the loop, contributing nothing and raising no error (the code has no
CorruptInput). -/
theorem C6_amended :
    (∀ st : LSMTree, st.load none = .error .FileNotFound) ∧
    (∀ (st : LSMTree) (bs : List Nat), st.load (some bs) = putAll st (parseRecords bs)) := by
  refine ⟨fun st => rfl, fun st bs => ?_⟩
  unfold LSMTree.load parseRecords
  exact loadAux_parse bs.length st bs (le_refl _)

/-- C10 witness: merging the all-tombstone run of stC10 into the empty
deepest level appends exactly one run; that run holds zero entries
(the whole batch was elided) yet fills one of the slots of the level, its
remaining count dropping from 2 to 1. -/
theorem C10_witness :
    (levelAt tC10 1).runs =
      (levelAt stC10 1).runs.drop
        (if (levelAt stC10 1).remaining = 0 then msizeOf stC10 1 else 0) ++
      [⟨mergeOut stC10 0⟩] ∧
    mergeOut stC10 0 = [] ∧
    (levelAt tC10 1).runs = [⟨[]⟩] ∧
    (levelAt tC10 1).remaining = 1 := by
  exact ⟨C10_appends_one_run stC10 0 tC10 (by decide) (by decide) rfl,
         by decide, by decide, by decide⟩

end LSM
